import Mathlib

/-! Verification development for the DMG background generator
(`dmg_background.py`): a shallow embedding of its PNG encoder, alpha
compositor, rasterizer and scene builder, with proofs of the documented
properties.  Pixel buffers are flat RGBA byte lists (`List Nat`), machine
floats are modelled by exact rationals where the code's arithmetic is
rational and by reals where it takes square roots, and Python's `int()`
conversion is modelled by truncation toward zero. -/

namespace DmgBackground

/-- Truncation toward zero of a rational number, as Python's `int()`. -/
def pyInt (q : ℚ) : ℤ := q.num.tdiv q.den

/-- Truncation toward zero of a real number, as Python's `int()`. -/
noncomputable def pyIntR (x : ℝ) : ℤ := if 0 ≤ x then ⌊x⌋ else -⌊-x⌋

theorem pyInt_eq_floor {q : ℚ} (h : 0 ≤ q) : pyInt q = ⌊q⌋ := by
  rw [pyInt, Rat.floor_def, Int.tdiv_eq_ediv (Rat.num_nonneg.2 h) (Int.natCast_nonneg _)]

theorem pyIntR_eq_floor {x : ℝ} (h : 0 ≤ x) : pyIntR x = ⌊x⌋ := if_pos h

theorem getD_set_ne (l : List Nat) {i j : Nat} (v : Nat) (h : i ≠ j) :
    (l.set i v).getD j 0 = l.getD j 0 := by
  simp [List.getD_eq_getElem?_getD, List.getElem?_set_ne h]

theorem getD_set_self (l : List Nat) {i : Nat} (v : Nat) (h : i < l.length) :
    (l.set i v).getD i 0 = v := by
  simp [List.getD_eq_getElem?_getD, List.getElem?_set_self h]

/-- Byte index of pixel `(x, y)` in the flat RGBA buffer: `(y*width + x)*4`. -/
def pixIdx (width : Nat) (x y : Int) : Nat := (y.toNat * width + x.toNat) * 4

/-- Channel update of the blend branch of `set_pixel`
(dmg_background.py lines 53-56): `min(255, int(src * fa + dst * (1 - fa)))`
with `fa = a / 255`, over exact rationals. -/
def blendChannel (src dst a : Nat) : Nat :=
  (min 255 (pyInt ((src : ℚ) * ((a : ℚ) / 255) + (dst : ℚ) * (1 - (a : ℚ) / 255)))).toNat

/-- Compositor `set_pixel` (dmg_background.py lines 42-57): writes a color
into the flat RGBA buffer with alpha blending, silently clipping
out-of-bounds coordinates.  Channel blending happens over exact rationals,
`fa = a / 255`, and each channel is stored as `min(255, int(...))`; the
alpha byte is updated to `min(255, old_a + a)`.  The four byte writes are
sequential, each reading its own channel from the partially updated
buffer, exactly as the Python statements do. -/
def set_pixel (pixels : List Nat) (width height : Nat) (x y : Int) (r g b a : Nat) : List Nat :=
  if 0 ≤ x ∧ x < (width : Int) ∧ 0 ≤ y ∧ y < (height : Int) then
    let idx := pixIdx width x y
    let old_a := pixels.getD (idx + 3) 0
    if old_a = 0 then
      ((((pixels.set idx r).set (idx + 1) g).set (idx + 2) b).set (idx + 3) a)
    else
      let p0 := pixels.set idx (blendChannel r (pixels.getD idx 0) a)
      let p1 := p0.set (idx + 1) (blendChannel g (p0.getD (idx + 1) 0) a)
      let p2 := p1.set (idx + 2) (blendChannel b (p1.getD (idx + 2) 0) a)
      p2.set (idx + 3) (min 255 (old_a + a))
  else pixels

theorem set_pixel_of_oob (pixels : List Nat) (width height : Nat) (x y : Int)
    (r g b a : Nat) (h : x < 0 ∨ (width : Int) ≤ x ∨ y < 0 ∨ (height : Int) ≤ y) :
    set_pixel pixels width height x y r g b a = pixels := by
  rw [set_pixel, if_neg]
  intro ⟨h1, h2, h3, h4⟩
  rcases h with h | h | h | h <;> omega

theorem set_pixel_of_zero (pixels : List Nat) (width height : Nat) (x y : Int)
    (r g b a : Nat) (hin : 0 ≤ x ∧ x < (width : Int) ∧ 0 ≤ y ∧ y < (height : Int))
    (h0 : pixels.getD (pixIdx width x y + 3) 0 = 0) :
    set_pixel pixels width height x y r g b a =
      ((((pixels.set (pixIdx width x y) r).set (pixIdx width x y + 1) g).set
          (pixIdx width x y + 2) b).set (pixIdx width x y + 3) a) := by
  rw [set_pixel, if_pos hin]
  exact if_pos h0

theorem set_pixel_of_blend (pixels : List Nat) (width height : Nat) (x y : Int)
    (r g b a : Nat) (hin : 0 ≤ x ∧ x < (width : Int) ∧ 0 ≤ y ∧ y < (height : Int))
    (h0 : pixels.getD (pixIdx width x y + 3) 0 ≠ 0) :
    set_pixel pixels width height x y r g b a =
      ((((pixels.set (pixIdx width x y) (blendChannel r (pixels.getD (pixIdx width x y) 0) a)).set
          (pixIdx width x y + 1) (blendChannel g (pixels.getD (pixIdx width x y + 1) 0) a)).set
          (pixIdx width x y + 2) (blendChannel b (pixels.getD (pixIdx width x y + 2) 0) a)).set
          (pixIdx width x y + 3) (min 255 (pixels.getD (pixIdx width x y + 3) 0 + a))) := by
  rw [set_pixel, if_pos hin]
  rw [if_neg h0]
  dsimp only
  have e1 : (pixels.set (pixIdx width x y) (blendChannel r (pixels.getD (pixIdx width x y) 0) a)).getD
      (pixIdx width x y + 1) 0 = pixels.getD (pixIdx width x y + 1) 0 :=
    getD_set_ne _ _ (by omega)
  rw [e1]
  have e2 : ((pixels.set (pixIdx width x y) (blendChannel r (pixels.getD (pixIdx width x y) 0) a)).set
      (pixIdx width x y + 1) (blendChannel g (pixels.getD (pixIdx width x y + 1) 0) a)).getD
      (pixIdx width x y + 2) 0 = pixels.getD (pixIdx width x y + 2) 0 := by
    rw [getD_set_ne _ _ (by omega), getD_set_ne _ _ (by omega)]
  rw [e2]

theorem set_pixel_length (pixels : List Nat) (width height : Nat) (x y : Int)
    (r g b a : Nat) : (set_pixel pixels width height x y r g b a).length = pixels.length := by
  rw [set_pixel]
  split
  · dsimp only
    split <;> simp [List.length_set]
  · rfl

/-- Blend formula as the specification words it: the stored channel byte is
the integer truncation of `clamp(src*fa + dst*(1-fa), 0, 255)` with
`fa = a/255`. -/
def blendSpec (src dst a : Nat) : Nat :=
  (pyInt (max 0 (min 255 ((src : ℚ) * ((a : ℚ) / 255) + (dst : ℚ) * (1 - (a : ℚ) / 255))))).toNat

theorem blendChannel_eq_blendSpec (src dst a : Nat) (hs : src ≤ 255) (hd : dst ≤ 255)
    (ha : a ≤ 255) : blendChannel src dst a = blendSpec src dst a := by
  have hs0 : (0 : ℚ) ≤ (src : ℚ) := Nat.cast_nonneg src
  have hd0 : (0 : ℚ) ≤ (dst : ℚ) := Nat.cast_nonneg dst
  have hs255 : (src : ℚ) ≤ 255 := by exact_mod_cast hs
  have hd255 : (dst : ℚ) ≤ 255 := by exact_mod_cast hd
  have hfa0 : (0 : ℚ) ≤ (a : ℚ) / 255 := by positivity
  have hfa1 : (a : ℚ) / 255 ≤ 1 := by
    rw [div_le_one (by norm_num)]
    exact_mod_cast ha
  have hq0 : 0 ≤ (src : ℚ) * ((a : ℚ) / 255) + (dst : ℚ) * (1 - (a : ℚ) / 255) := by
    have := mul_nonneg hs0 hfa0
    have := mul_nonneg hd0 (by linarith : (0 : ℚ) ≤ 1 - (a : ℚ) / 255)
    linarith
  have hq255 : (src : ℚ) * ((a : ℚ) / 255) + (dst : ℚ) * (1 - (a : ℚ) / 255) ≤ 255 := by
    have h1 := mul_le_mul_of_nonneg_right hs255 hfa0
    have h2 := mul_le_mul_of_nonneg_right hd255 (by linarith : (0 : ℚ) ≤ 1 - (a : ℚ) / 255)
    nlinarith
  rw [blendChannel, blendSpec, max_eq_right (le_min (by norm_num) hq0), min_eq_right hq255,
    pyInt_eq_floor hq0, min_eq_right]
  have h255 : ⌊(255 : ℚ)⌋ = 255 := by norm_num
  calc ⌊(src : ℚ) * ((a : ℚ) / 255) + (dst : ℚ) * (1 - (a : ℚ) / 255)⌋ ≤ ⌊(255 : ℚ)⌋ :=
        Int.floor_le_floor hq255
  _ = 255 := h255

theorem pixIdx_add_lt (width height : Nat) (x y : Int) (c : Nat)
    (hx : 0 ≤ x) (hxw : x < (width : Int)) (hy : 0 ≤ y) (hyh : y < (height : Int))
    (hc : c < 4) : pixIdx width x y + c < width * height * 4 := by
  have hx' : x.toNat < width := by omega
  have hy' : y.toNat < height := by omega
  rw [pixIdx]
  have h1 : y.toNat * width + x.toNat + 1 ≤ height * width := by
    calc y.toNat * width + x.toNat + 1 ≤ y.toNat * width + width := by omega
    _ = (y.toNat + 1) * width := by ring
    _ ≤ height * width := Nat.mul_le_mul_right width hy'
  have h2 : width * height * 4 = height * width * 4 := by ring
  rw [h2]
  generalize y.toNat * width + x.toNat = m at h1 ⊢
  generalize height * width = n at h1 ⊢
  omega

theorem getD_set4_r (l : List Nat) (i v0 v1 v2 v3 : Nat) (h : i < l.length) :
    ((((l.set i v0).set (i + 1) v1).set (i + 2) v2).set (i + 3) v3).getD i 0 = v0 := by
  rw [getD_set_ne _ _ (by omega), getD_set_ne _ _ (by omega), getD_set_ne _ _ (by omega),
    getD_set_self _ _ h]

theorem getD_set4_g (l : List Nat) (i v0 v1 v2 v3 : Nat) (h : i + 1 < l.length) :
    ((((l.set i v0).set (i + 1) v1).set (i + 2) v2).set (i + 3) v3).getD (i + 1) 0 = v1 := by
  rw [getD_set_ne _ _ (by omega), getD_set_ne _ _ (by omega),
    getD_set_self _ _ (by simpa [List.length_set] using h)]

theorem getD_set4_b (l : List Nat) (i v0 v1 v2 v3 : Nat) (h : i + 2 < l.length) :
    ((((l.set i v0).set (i + 1) v1).set (i + 2) v2).set (i + 3) v3).getD (i + 2) 0 = v2 := by
  rw [getD_set_ne _ _ (by omega),
    getD_set_self _ _ (by simpa [List.length_set] using h)]

theorem getD_set4_a (l : List Nat) (i v0 v1 v2 v3 : Nat) (h : i + 3 < l.length) :
    ((((l.set i v0).set (i + 1) v1).set (i + 2) v2).set (i + 3) v3).getD (i + 3) 0 = v3 := by
  rw [getD_set_self _ _ (by simpa [List.length_set] using h)]

theorem getD_set4_frame (l : List Nat) (i v0 v1 v2 v3 j : Nat) (h : j < i ∨ i + 4 ≤ j) :
    ((((l.set i v0).set (i + 1) v1).set (i + 2) v2).set (i + 3) v3).getD j 0 = l.getD j 0 := by
  rw [getD_set_ne _ _ (by omega), getD_set_ne _ _ (by omega), getD_set_ne _ _ (by omega),
    getD_set_ne _ _ (by omega)]

theorem foldl_preserve {α β : Type} (P : β → Prop) (f : β → α → β) (l : List α) (b : β)
    (hb : P b) (hf : ∀ acc x, x ∈ l → P acc → P (f acc x)) : P (l.foldl f b) := by
  induction l generalizing b with
  | nil => exact hb
  | cons hd tl ih =>
    exact ih (f b hd) (hf b hd (by simp) hb) fun acc x hx hacc => hf acc x (by simp [hx]) hacc

theorem foldl_fixed {α β : Type} (f : β → α → β) (l : List α) (b : β)
    (hf : ∀ acc x, x ∈ l → f acc x = acc) : l.foldl f b = b := by
  induction l generalizing b with
  | nil => rfl
  | cons hd tl ih =>
    rw [List.foldl_cons, hf b hd (by simp)]
    exact ih b fun acc x hx => hf acc x (by simp [hx])

/-- C3: an in-bounds `set_pixel` call overwrites the target pixel with the
source color when the stored alpha is 0; otherwise each RGB channel is
independently replaced by `clamp(src*fa + dst*(1-fa), 0, 255)` with
`fa = a/255` (stored as the truncated byte value); and no byte of any other
pixel changes. -/
theorem c3_set_pixel_semantics (pixels : List Nat) (width height : Nat) (x y : Int)
    (r g b a : Nat) (hx : 0 ≤ x) (hxw : x < (width : Int)) (hy : 0 ≤ y)
    (hyh : y < (height : Int)) (hlen : pixels.length = width * height * 4)
    (hbytes : ∀ v ∈ pixels, v ≤ 255) (hr : r ≤ 255) (hg : g ≤ 255) (hb : b ≤ 255)
    (ha : a ≤ 255) :
    (pixels.getD (pixIdx width x y + 3) 0 = 0 →
      (set_pixel pixels width height x y r g b a).getD (pixIdx width x y) 0 = r ∧
      (set_pixel pixels width height x y r g b a).getD (pixIdx width x y + 1) 0 = g ∧
      (set_pixel pixels width height x y r g b a).getD (pixIdx width x y + 2) 0 = b ∧
      (set_pixel pixels width height x y r g b a).getD (pixIdx width x y + 3) 0 = a) ∧
    (pixels.getD (pixIdx width x y + 3) 0 ≠ 0 →
      (set_pixel pixels width height x y r g b a).getD (pixIdx width x y) 0 =
        blendSpec r (pixels.getD (pixIdx width x y) 0) a ∧
      (set_pixel pixels width height x y r g b a).getD (pixIdx width x y + 1) 0 =
        blendSpec g (pixels.getD (pixIdx width x y + 1) 0) a ∧
      (set_pixel pixels width height x y r g b a).getD (pixIdx width x y + 2) 0 =
        blendSpec b (pixels.getD (pixIdx width x y + 2) 0) a) ∧
    (∀ j : Nat, j < pixIdx width x y ∨ pixIdx width x y + 4 ≤ j →
      (set_pixel pixels width height x y r g b a).getD j 0 = pixels.getD j 0) := by
  have hin : 0 ≤ x ∧ x < (width : Int) ∧ 0 ≤ y ∧ y < (height : Int) := ⟨hx, hxw, hy, hyh⟩
  have hi0 : pixIdx width x y < pixels.length := by
    rw [hlen]; simpa using pixIdx_add_lt width height x y 0 hx hxw hy hyh (by omega)
  have hi1 : pixIdx width x y + 1 < pixels.length := by
    rw [hlen]; exact pixIdx_add_lt width height x y 1 hx hxw hy hyh (by omega)
  have hi2 : pixIdx width x y + 2 < pixels.length := by
    rw [hlen]; exact pixIdx_add_lt width height x y 2 hx hxw hy hyh (by omega)
  have hi3 : pixIdx width x y + 3 < pixels.length := by
    rw [hlen]; exact pixIdx_add_lt width height x y 3 hx hxw hy hyh (by omega)
  have hdmem : ∀ i : Nat, i < pixels.length → pixels.getD i 0 ≤ 255 := by
    intro i hi
    have : pixels.getD i 0 ∈ pixels := by
      rw [List.getD_eq_getElem?_getD, List.getElem?_eq_getElem hi]
      exact List.getElem_mem hi
    exact hbytes _ this
  refine ⟨fun h0 => ?_, fun h0 => ?_, fun j hj => ?_⟩
  · rw [set_pixel_of_zero pixels width height x y r g b a hin h0]
    exact ⟨getD_set4_r _ _ _ _ _ _ hi0, getD_set4_g _ _ _ _ _ _ hi1,
      getD_set4_b _ _ _ _ _ _ hi2, getD_set4_a _ _ _ _ _ _ hi3⟩
  · rw [set_pixel_of_blend pixels width height x y r g b a hin h0]
    refine ⟨?_, ?_, ?_⟩
    · rw [getD_set4_r _ _ _ _ _ _ hi0]
      exact blendChannel_eq_blendSpec r _ a hr (hdmem _ hi0) ha
    · rw [getD_set4_g _ _ _ _ _ _ hi1]
      exact blendChannel_eq_blendSpec g _ a hg (hdmem _ hi1) ha
    · rw [getD_set4_b _ _ _ _ _ _ hi2]
      exact blendChannel_eq_blendSpec b _ a hb (hdmem _ hi2) ha
  · by_cases h0 : pixels.getD (pixIdx width x y + 3) 0 = 0
    · rw [set_pixel_of_zero pixels width height x y r g b a hin h0]
      exact getD_set4_frame _ _ _ _ _ _ j hj
    · rw [set_pixel_of_blend pixels width height x y r g b a hin h0]
      exact getD_set4_frame _ _ _ _ _ _ j hj

/-- Witness for C3 at concrete inputs: an overwrite call on a transparent
pixel, a blend call on an opaque pixel, and the frame condition. -/
theorem c3_set_pixel_semantics_witness :
    (set_pixel [9, 9, 9, 0, 100, 110, 120, 50] 2 1 0 0 5 6 7 8).getD 0 0 = 5 ∧
    (set_pixel [9, 9, 9, 0, 100, 110, 120, 50] 2 1 0 0 5 6 7 8).getD 3 0 = 8 ∧
    (set_pixel [9, 9, 9, 0, 100, 110, 120, 50] 2 1 0 0 5 6 7 8).getD 4 0 = 100 ∧
    (set_pixel [9, 9, 9, 0, 100, 110, 120, 50] 2 1 1 0 200 201 202 128).getD 4 0 =
      blendSpec 200 100 128 := by
  have h1 := c3_set_pixel_semantics [9, 9, 9, 0, 100, 110, 120, 50] 2 1 0 0 5 6 7 8
    (by decide) (by decide) (by decide) (by decide) (by decide) (by decide)
    (by decide) (by decide) (by decide) (by decide)
  have h2 := c3_set_pixel_semantics [9, 9, 9, 0, 100, 110, 120, 50] 2 1 1 0 200 201 202 128
    (by decide) (by decide) (by decide) (by decide) (by decide) (by decide)
    (by decide) (by decide) (by decide) (by decide)
  refine ⟨(h1.1 (by decide)).1, (h1.1 (by decide)).2.2.2, h1.2.2 4 (by decide), ?_⟩
  exact (h2.2.1 (by decide)).1

theorem set_pixel_of_not_in (pixels : List Nat) (width height : Nat) (x y : Int)
    (r g b a : Nat) (h : ¬(0 ≤ x ∧ x < (width : Int) ∧ 0 ≤ y ∧ y < (height : Int))) :
    set_pixel pixels width height x y r g b a = pixels := by
  rw [set_pixel, if_neg h]

theorem pixIdx_mod_four (width : Nat) (x y : Int) : pixIdx width x y % 4 = 0 := by
  rw [pixIdx]; omega

/-- Alpha byte of a pixel never decreases and stays at most 255 across one
`set_pixel` call, assuming the buffer has its nominal length, the byte was
at most 255 and the call's alpha is at most 255. -/
theorem set_pixel_alpha_step (pixels : List Nat) (width height : Nat) (x y : Int)
    (r g b a : Nat) (hlen : pixels.length = width * height * 4) (ha : a ≤ 255)
    (j : Nat) (hj : j % 4 = 3) (hinv : pixels.getD j 0 ≤ 255) :
    pixels.getD j 0 ≤ (set_pixel pixels width height x y r g b a).getD j 0 ∧
    (set_pixel pixels width height x y r g b a).getD j 0 ≤ 255 := by
  by_cases hin : 0 ≤ x ∧ x < (width : Int) ∧ 0 ≤ y ∧ y < (height : Int)
  · obtain ⟨hx, hxw, hy, hyh⟩ := hin
    have hmod := pixIdx_mod_four width x y
    have hi3 : pixIdx width x y + 3 < pixels.length := by
      rw [hlen]; exact pixIdx_add_lt width height x y 3 hx hxw hy hyh (by omega)
    by_cases hjin : pixIdx width x y ≤ j ∧ j < pixIdx width x y + 4
    · have hj3 : j = pixIdx width x y + 3 := by omega
      subst hj3
      by_cases h0 : pixels.getD (pixIdx width x y + 3) 0 = 0
      · rw [set_pixel_of_zero pixels width height x y r g b a ⟨hx, hxw, hy, hyh⟩ h0,
          getD_set4_a _ _ _ _ _ _ hi3]
        omega
      · rw [set_pixel_of_blend pixels width height x y r g b a ⟨hx, hxw, hy, hyh⟩ h0,
          getD_set4_a _ _ _ _ _ _ hi3]
        omega
    · have hj' : j < pixIdx width x y ∨ pixIdx width x y + 4 ≤ j := by omega
      by_cases h0 : pixels.getD (pixIdx width x y + 3) 0 = 0
      · rw [set_pixel_of_zero pixels width height x y r g b a ⟨hx, hxw, hy, hyh⟩ h0,
          getD_set4_frame _ _ _ _ _ _ j hj']
        omega
      · rw [set_pixel_of_blend pixels width height x y r g b a ⟨hx, hxw, hy, hyh⟩ h0,
          getD_set4_frame _ _ _ _ _ _ j hj']
        omega
  · rw [set_pixel_of_not_in pixels width height x y r g b a hin]
    omega

/-- Arguments of one compositor call, as issued by the rasterizer. -/
structure PixelCall where
  x : Int
  y : Int
  r : Nat
  g : Nat
  b : Nat
  a : Nat

/-- Sequential application of a list of `set_pixel` calls to a buffer. -/
def applyCalls (width height : Nat) (calls : List PixelCall) (pixels : List Nat) : List Nat :=
  calls.foldl (fun acc c => set_pixel acc width height c.x c.y c.r c.g c.b c.a) pixels

theorem applyCalls_inv (width height : Nat) (calls : List PixelCall) (pixels : List Nat)
    (hlen : pixels.length = width * height * 4)
    (hinv : ∀ j : Nat, j % 4 = 3 → pixels.getD j 0 ≤ 255)
    (hca : ∀ c ∈ calls, c.a ≤ 255) :
    (applyCalls width height calls pixels).length = width * height * 4 ∧
    ∀ j : Nat, j % 4 = 3 → (applyCalls width height calls pixels).getD j 0 ≤ 255 := by
  refine foldl_preserve
    (fun buf => buf.length = width * height * 4 ∧ ∀ j : Nat, j % 4 = 3 → buf.getD j 0 ≤ 255)
    _ calls pixels ⟨hlen, hinv⟩ ?_
  intro acc c hc ⟨hl, hv⟩
  refine ⟨by rw [set_pixel_length]; exact hl, fun j hj => ?_⟩
  exact (set_pixel_alpha_step acc width height c.x c.y c.r c.g c.b c.a hl
    (hca c hc) j hj (hv j hj)).2

/-- C4: along any finite sequence of `set_pixel` calls with alphas in
[0,255], each pixel's stored alpha never exceeds 255 and never decreases
from one call to the next; a single in-bounds call sets it to `a` when it
was 0 and to `min(255, old + a)` otherwise. -/
theorem c4_alpha_accumulation (width height : Nat) (pixels : List Nat)
    (calls : List PixelCall) (hlen : pixels.length = width * height * 4)
    (hinv : ∀ j : Nat, j % 4 = 3 → pixels.getD j 0 ≤ 255)
    (hca : ∀ c ∈ calls, c.a ≤ 255) :
    (∀ n j : Nat, j % 4 = 3 →
      (applyCalls width height (calls.take n) pixels).getD j 0 ≤ 255) ∧
    (∀ n j : Nat, j % 4 = 3 →
      (applyCalls width height (calls.take n) pixels).getD j 0 ≤
        (applyCalls width height (calls.take (n + 1)) pixels).getD j 0) ∧
    (∀ (pix : List Nat) (x y : Int) (r g b a : Nat),
      pix.length = width * height * 4 →
      0 ≤ x → x < (width : Int) → 0 ≤ y → y < (height : Int) →
      (set_pixel pix width height x y r g b a).getD (pixIdx width x y + 3) 0 =
        if pix.getD (pixIdx width x y + 3) 0 = 0 then a
        else min 255 (pix.getD (pixIdx width x y + 3) 0 + a)) := by
  have hQ : ∀ n : Nat,
      (applyCalls width height (calls.take n) pixels).length = width * height * 4 ∧
      ∀ j : Nat, j % 4 = 3 → (applyCalls width height (calls.take n) pixels).getD j 0 ≤ 255 :=
    fun n => applyCalls_inv width height (calls.take n) pixels hlen hinv
      fun c hc => hca c (List.take_subset n calls hc)
  refine ⟨fun n j hj => (hQ n).2 j hj, fun n j hj => ?_, ?_⟩
  · by_cases hn : n < calls.length
    · have htake : calls.take (n + 1) = calls.take n ++ [calls[n]] := by
        rw [List.take_succ, List.getElem?_eq_getElem hn]
        rfl
      rw [htake]
      unfold applyCalls
      rw [List.foldl_append]
      exact (set_pixel_alpha_step _ width height _ _ _ _ _ _ (hQ n).1
        (hca _ (List.getElem_mem hn)) j hj ((hQ n).2 j hj)).1
    · rw [List.take_of_length_le (by omega), List.take_of_length_le (by omega)]
  · intro pix x y r g b a hl hx hxw hy hyh
    have hi3 : pixIdx width x y + 3 < pix.length := by
      rw [hl]; exact pixIdx_add_lt width height x y 3 hx hxw hy hyh (by omega)
    by_cases h0 : pix.getD (pixIdx width x y + 3) 0 = 0
    · rw [set_pixel_of_zero pix width height x y r g b a ⟨hx, hxw, hy, hyh⟩ h0,
        getD_set4_a _ _ _ _ _ _ hi3, if_pos h0]
    · rw [set_pixel_of_blend pix width height x y r g b a ⟨hx, hxw, hy, hyh⟩ h0,
        getD_set4_a _ _ _ _ _ _ hi3, if_neg h0]

theorem getD_le_of_all_le (l : List Nat) (m : Nat) (h : ∀ v ∈ l, v ≤ m) (j : Nat) :
    l.getD j 0 ≤ m := by
  by_cases hj : j < l.length
  · have hmem : l.getD j 0 ∈ l := by
      rw [List.getD_eq_getElem?_getD, List.getElem?_eq_getElem hj]
      exact List.getElem_mem hj
    exact h _ hmem
  · rw [List.getD_eq_default _ _ (by omega)]
    omega

/-- Witness for C4 on a one-pixel canvas with a single call of alpha 200. -/
theorem c4_alpha_accumulation_witness :
    (applyCalls 1 1 (List.take 1 [⟨0, 0, 9, 9, 9, 200⟩]) [1, 2, 3, 4]).getD 3 0 ≤ 255 ∧
    (applyCalls 1 1 (List.take 0 [⟨0, 0, 9, 9, 9, 200⟩]) [1, 2, 3, 4]).getD 3 0 ≤
      (applyCalls 1 1 (List.take 1 [⟨0, 0, 9, 9, 9, 200⟩]) [1, 2, 3, 4]).getD 3 0 ∧
    (set_pixel [1, 2, 3, 4] 1 1 0 0 9 9 9 200).getD 3 0 = 204 := by
  have h := c4_alpha_accumulation 1 1 [1, 2, 3, 4] [⟨0, 0, 9, 9, 9, 200⟩]
    (by decide) (fun j _ => getD_le_of_all_le _ 255 (by decide) j) (by decide)
  refine ⟨h.1 1 3 (by decide), h.2.1 0 3 (by decide), ?_⟩
  have h3 := h.2.2 [1, 2, 3, 4] 0 0 9 9 9 200 (by decide) (by decide) (by decide)
    (by decide) (by decide)
  simpa using h3

/-- Big-endian 4-byte encoding of a 32-bit unsigned integer, as
Python's struct.pack with format >I. -/
def be32 (n : Nat) : List Nat := [n / 2 ^ 24 % 256, n / 2 ^ 16 % 256, n / 2 ^ 8 % 256, n % 256]

/-- One shift-xor round of the reflected CRC-32 with polynomial
0xEDB88320, as used by zlib.crc32. -/
def crc32Round (c : Nat) : Nat := if c % 2 = 1 then 0xEDB88320 ^^^ (c / 2) else c / 2

/-- Folds one byte into the CRC-32 state: xor the byte in, then eight
shift-xor rounds. -/
def crc32Byte (c b : Nat) : Nat :=
  crc32Round (crc32Round (crc32Round (crc32Round
    (crc32Round (crc32Round (crc32Round (crc32Round (c ^^^ b))))))))

/-- CRC-32 of a byte list (zlib.crc32 with its standard init and final
xor of 0xFFFFFFFF). -/
def crc32 (data : List Nat) : Nat := (data.foldl crc32Byte 0xFFFFFFFF) ^^^ 0xFFFFFFFF

/-- Chunk serializer nested in create_png (dmg_background.py lines 21-24):
length, then type ++ data, then CRC32 of type ++ data. -/
def chunk (chunk_type data : List Nat) : List Nat :=
  be32 data.length ++ (chunk_type ++ data) ++ be32 (crc32 (chunk_type ++ data))

/-- Eight-byte PNG signature written by create_png (line 26). -/
def pngSignature : List Nat := [0x89, 0x50, 0x4E, 0x47, 0x0D, 0x0A, 0x1A, 0x0A]

/-- ASCII bytes of the chunk type IHDR. -/
def ihdrType : List Nat := [73, 72, 68, 82]

/-- ASCII bytes of the chunk type IDAT. -/
def idatType : List Nat := [73, 68, 65, 84]

/-- ASCII bytes of the chunk type IEND. -/
def iendType : List Nat := [73, 69, 78, 68]

/-- Raw scanline stream built by create_png (lines 29-34): for each row a
zero filter byte, then for each pixel the 4-byte slice
pixels[idx:idx+4]. -/
def rawScanlines (width height : Nat) (pixels : List Nat) : List Nat :=
  (List.range height).foldl (fun acc y =>
    (List.range width).foldl (fun acc2 x =>
      acc2 ++ (pixels.drop ((y * width + x) * 4)).take 4) (acc ++ [0])) []

/-- PNG encoder create_png (dmg_background.py lines 19-39), parameterized
by the zlib deflate function, which is external library code. -/
def create_png (compress : List Nat → List Nat) (width height : Nat) (pixels : List Nat) :
    List Nat :=
  pngSignature ++ chunk ihdrType (be32 width ++ be32 height ++ [8, 6, 0, 0, 0])
    ++ chunk idatType (compress (rawScanlines width height pixels))
    ++ chunk iendType []

/-- Chunk layout as the specification words it: 4-byte big-endian payload
length, the 4 ASCII type bytes, the payload, then the 4-byte big-endian
CRC32 of type concatenated with payload. -/
def chunkSpec (ctype payload : List Nat) : List Nat :=
  be32 payload.length ++ ctype ++ payload ++ be32 (crc32 (ctype ++ payload))

/-- C9: the encoder embeds no randomness or timestamps: equal compression
functions, dimensions and pixel buffers give byte-identical PNG streams. -/
theorem c9_deterministic (compress compress2 : List Nat → List Nat)
    (width height width2 height2 : Nat) (pixels pixels2 : List Nat)
    (hc : compress = compress2) (hw : width = width2) (hh : height = height2)
    (hp : pixels = pixels2) :
    create_png compress width height pixels = create_png compress2 width2 height2 pixels2 := by
  subst hc; subst hw; subst hh; subst hp; rfl

/-- Witness for C9: two identical invocations on a 1-by-1 canvas. -/
theorem c9_deterministic_witness :
    create_png id 1 1 [1, 2, 3, 4] = create_png id 1 1 [1, 2, 3, 4] :=
  c9_deterministic id id 1 1 1 1 [1, 2, 3, 4] [1, 2, 3, 4] rfl rfl rfl rfl

/-- Raw scanline of row y as the specification words it: one zero filter
byte, then the row's width*4 RGBA bytes taken left to right. -/
def scanlineSpec (width : Nat) (pixels : List Nat) (y : Nat) : List Nat :=
  0 :: (pixels.drop (y * (width * 4))).take (width * 4)

theorem rowFold (pixels : List Nat) (off : Nat) :
    ∀ (n : Nat) (acc : List Nat),
      (List.range n).foldl (fun acc2 x => acc2 ++ (pixels.drop (off + x * 4)).take 4) acc
        = acc ++ (pixels.drop off).take (n * 4) := by
  intro n
  induction n with
  | zero => simp
  | succ n ih =>
    intro acc
    rw [List.range_succ, List.foldl_append, ih acc]
    have h1 : (n + 1) * 4 = n * 4 + 4 := by ring
    rw [h1, List.take_add, List.drop_drop]
    simp [List.foldl_cons]

theorem foldl_append_eq_join {α β : Type} (f : α → List β) (l : List α) (acc : List β) :
    l.foldl (fun a y => a ++ f y) acc = acc ++ (l.map f).flatten := by
  induction l generalizing acc with
  | nil => simp
  | cons hd tl ih => simp [ih]

theorem rawScanlines_eq (width height : Nat) (pixels : List Nat) :
    rawScanlines width height pixels =
      ((List.range height).map (scanlineSpec width pixels)).flatten := by
  rw [rawScanlines]
  have hbody : (fun (acc : List Nat) (y : Nat) =>
      (List.range width).foldl (fun acc2 x =>
        acc2 ++ (pixels.drop ((y * width + x) * 4)).take 4) (acc ++ [0]))
      = fun acc y => acc ++ scanlineSpec width pixels y := by
    funext acc y
    have h1 : (fun (acc2 : List Nat) (x : Nat) =>
        acc2 ++ (pixels.drop ((y * width + x) * 4)).take 4)
        = fun acc2 x => acc2 ++ (pixels.drop (y * (width * 4) + x * 4)).take 4 := by
      funext acc2 x
      have : (y * width + x) * 4 = y * (width * 4) + x * 4 := by ring
      rw [this]
    rw [h1, rowFold pixels (y * (width * 4)) width (acc ++ [0])]
    simp [scanlineSpec]
  rw [hbody, foldl_append_eq_join]
  simp

/-- Removes the leading filter byte of each of the given number of rows
from a raw scanline stream, keeping each row's width*4 pixel bytes. -/
def stripFilterBytes (width : Nat) : Nat → List Nat → List Nat
  | 0, _ => []
  | h + 1, s => (s.drop 1).take (width * 4) ++ stripFilterBytes width h (s.drop (1 + width * 4))

theorem strip_scanlines (width : Nat) :
    ∀ (height : Nat) (pixels : List Nat), pixels.length = width * height * 4 →
      stripFilterBytes width height
        (((List.range height).map (scanlineSpec width pixels)).flatten) = pixels := by
  intro height
  induction height with
  | zero =>
    intro pixels hlen
    simp at hlen
    simp [stripFilterBytes, hlen]
  | succ h ih =>
    intro pixels hlen
    have hw4 : width * 4 ≤ pixels.length := by
      have : width * (h + 1) * 4 = width * 4 + width * h * 4 := by ring
      omega
    have hlen4 : (pixels.take (width * 4)).length = width * 4 := by
      rw [List.length_take]; omega
    have hmap : (List.range (h + 1)).map (scanlineSpec width pixels)
        = scanlineSpec width pixels 0
          :: (List.range h).map (scanlineSpec width (pixels.drop (width * 4))) := by
      rw [List.range_succ_eq_map, List.map_cons, List.map_map]
      congr 1
      apply List.map_congr_left
      intro y _
      show scanlineSpec width pixels (y + 1) = scanlineSpec width (pixels.drop (width * 4)) y
      rw [scanlineSpec, scanlineSpec, List.drop_drop]
      have : width * 4 + y * (width * 4) = (y + 1) * (width * 4) := by ring
      rw [this]
    rw [hmap, List.flatten]
    have hs0 : scanlineSpec width pixels 0 = 0 :: pixels.take (width * 4) := by
      simp [scanlineSpec]
    rw [hs0]
    show stripFilterBytes width (h + 1)
      (0 :: (pixels.take (width * 4)
        ++ ((List.range h).map (scanlineSpec width (pixels.drop (width * 4)))).flatten)) = pixels
    rw [stripFilterBytes]
    have hd1 : ((0 : Nat) :: (pixels.take (width * 4)
        ++ ((List.range h).map (scanlineSpec width (pixels.drop (width * 4)))).flatten)).drop 1
        = pixels.take (width * 4)
          ++ ((List.range h).map (scanlineSpec width (pixels.drop (width * 4)))).flatten := rfl
    have hdall : ((0 : Nat) :: (pixels.take (width * 4)
        ++ ((List.range h).map (scanlineSpec width (pixels.drop (width * 4)))).flatten)).drop
          (1 + width * 4)
        = ((List.range h).map (scanlineSpec width (pixels.drop (width * 4)))).flatten := by
      have h14 : 1 + width * 4 = width * 4 + 1 := by ring
      rw [h14, List.drop_succ_cons, List.drop_left' hlen4]
    rw [hd1, hdall, List.take_left' hlen4]
    rw [ih (pixels.drop (width * 4)) (by
      rw [List.length_drop]
      have he : width * (h + 1) * 4 = width * 4 + width * h * 4 := by ring
      omega)]
    exact List.take_append_drop (width * 4) pixels

/-- C2: decompressing the IDAT payload yields, row by row from the top, a
zero filter byte followed by that row's width*4 RGBA bytes, and stripping
the per-row filter bytes recovers the pixel buffer exactly. -/
theorem c2_scanlines_lossless (width height : Nat) (pixels : List Nat)
    (compress decompress : List Nat → List Nat)
    (hlen : pixels.length = width * height * 4)
    (hround : decompress (compress (rawScanlines width height pixels)) =
      rawScanlines width height pixels) :
    decompress (compress (rawScanlines width height pixels)) =
      ((List.range height).map (scanlineSpec width pixels)).flatten ∧
    stripFilterBytes width height
      (decompress (compress (rawScanlines width height pixels))) = pixels := by
  rw [hround, rawScanlines_eq]
  exact ⟨rfl, strip_scanlines width height pixels hlen⟩

/-- Witness for C2 on a 1-by-1 canvas with the identity as compressor. -/
theorem c2_scanlines_lossless_witness :
    id (id (rawScanlines 1 1 [10, 20, 30, 40])) =
      ((List.range 1).map (scanlineSpec 1 [10, 20, 30, 40])).flatten ∧
    stripFilterBytes 1 1 (id (id (rawScanlines 1 1 [10, 20, 30, 40]))) = [10, 20, 30, 40] :=
  c2_scanlines_lossless 1 1 [10, 20, 30, 40] id id (by decide) rfl

/-- Reads a 4-byte big-endian integer from the head of a byte stream. -/
def readBE32 : List Nat → Option (Nat × List Nat)
  | b0 :: b1 :: b2 :: b3 :: rest => some (((b0 * 256 + b1) * 256 + b2) * 256 + b3, rest)
  | _ => none

/-- Splits a byte stream into its PNG chunks, checking that each declared
payload length fits and that each CRC32 field matches the chunk's type and
payload; `fuel` bounds the number of chunks. -/
def parseChunks : Nat → List Nat → Option (List (List Nat × List Nat))
  | 0, s => if s = [] then some [] else none
  | fuel + 1, s =>
    if s = [] then some [] else
    (readBE32 s).bind fun p =>
      if 4 + (p.1 + 4) ≤ p.2.length then
        (readBE32 ((p.2.drop 4).drop p.1)).bind fun q =>
          if q.1 = crc32 (p.2.take 4 ++ (p.2.drop 4).take p.1) then
            (parseChunks fuel q.2).map fun more => (p.2.take 4, (p.2.drop 4).take p.1) :: more
          else none
      else none

theorem parseChunks_nil (fuel : Nat) : parseChunks fuel [] = some [] := by
  cases fuel <;> simp [parseChunks]

theorem be32_bytes_lt (n : Nat) : ∀ b ∈ be32 n, b < 256 := by
  intro b hb
  simp [be32] at hb
  rcases hb with h | h | h | h <;> omega

theorem readBE32_be32 (n : Nat) (h : n < 2 ^ 32) (rest : List Nat) :
    readBE32 (be32 n ++ rest) = some (n, rest) := by
  show readBE32 (n / 2 ^ 24 % 256 :: n / 2 ^ 16 % 256 :: n / 2 ^ 8 % 256 :: n % 256 :: rest)
    = some (n, rest)
  rw [readBE32]
  have e24 : (2 : Nat) ^ 24 = 16777216 := by norm_num
  have e16 : (2 : Nat) ^ 16 = 65536 := by norm_num
  have e8 : (2 : Nat) ^ 8 = 256 := by norm_num
  have e32 : (2 : Nat) ^ 32 = 4294967296 := by norm_num
  rw [e24, e16, e8] at *
  rw [e32] at h
  congr 2
  omega

theorem crc32Round_lt (c : Nat) (h : c < 2 ^ 32) : crc32Round c < 2 ^ 32 := by
  rw [crc32Round]
  split
  · exact Nat.xor_lt_two_pow (by norm_num) (by omega)
  · omega

theorem crc32Byte_lt (c b : Nat) (hc : c < 2 ^ 32) (hb : b < 256) : crc32Byte c b < 2 ^ 32 := by
  have hxor : c ^^^ b < 2 ^ 32 :=
    Nat.xor_lt_two_pow hc (by calc b < 256 := hb
                                _ ≤ 2 ^ 32 := by norm_num)
  rw [crc32Byte]
  exact crc32Round_lt _ (crc32Round_lt _ (crc32Round_lt _ (crc32Round_lt _ (crc32Round_lt _
    (crc32Round_lt _ (crc32Round_lt _ (crc32Round_lt _ hxor)))))))

theorem crc32_lt (data : List Nat) (h : ∀ b ∈ data, b < 256) : crc32 data < 2 ^ 32 := by
  rw [crc32]
  refine Nat.xor_lt_two_pow ?_ (by norm_num)
  exact foldl_preserve (fun c => c < 2 ^ 32) crc32Byte data 0xFFFFFFFF (by norm_num)
    fun acc x hx hacc => crc32Byte_lt acc x hacc (h x hx)

theorem chunk_ne_nil (t d : List Nat) (rest : List Nat) : chunk t d ++ rest ≠ [] := by
  simp [chunk, be32]

theorem parseChunks_cons (fuel : Nat) (t d rest : List Nat) (ht : t.length = 4)
    (hd : d.length < 2 ^ 32) (hb : ∀ b ∈ t ++ d, b < 256) :
    parseChunks (fuel + 1) (chunk t d ++ rest)
      = (parseChunks fuel rest).map fun more => (t, d) :: more := by
  have hcrc : crc32 (t ++ d) < 2 ^ 32 := crc32_lt _ hb
  have hform : chunk t d ++ rest
      = be32 d.length ++ (t ++ (d ++ (be32 (crc32 (t ++ d)) ++ rest))) := by
    simp [chunk, List.append_assoc]
  have hread : readBE32 (chunk t d ++ rest)
      = some (d.length, t ++ (d ++ (be32 (crc32 (t ++ d)) ++ rest))) := by
    rw [hform, readBE32_be32 _ hd]
  rw [parseChunks, if_neg (chunk_ne_nil t d rest), hread, Option.some_bind]
  have hlenR : (t ++ (d ++ (be32 (crc32 (t ++ d)) ++ rest))).length
      = 4 + (d.length + (4 + rest.length)) := by
    simp [List.length_append, ht, be32]
    omega
  rw [if_pos (by rw [hlenR]; omega)]
  have htake4 : (t ++ (d ++ (be32 (crc32 (t ++ d)) ++ rest))).take 4 = t :=
    List.take_left' ht
  have hdrop4 : (t ++ (d ++ (be32 (crc32 (t ++ d)) ++ rest))).drop 4
      = d ++ (be32 (crc32 (t ++ d)) ++ rest) :=
    List.drop_left' ht
  rw [htake4, hdrop4, List.take_left' rfl, List.drop_left' rfl,
    readBE32_be32 _ hcrc, Option.some_bind, if_pos rfl]

/-- C1: the encoder output is the PNG signature, an IHDR chunk whose
payload is big-endian width and height then the bytes 8, 6, 0, 0, 0,
exactly one IDAT chunk, and an empty IEND chunk, each chunk being 4-byte
big-endian payload length, 4 ASCII type bytes, payload, and big-endian
CRC32 of type ++ payload (certified by a CRC-checking chunk parser). -/
theorem c1_create_png_layout (compress : List Nat → List Nat) (width height : Nat)
    (pixels : List Nat) (hw : width < 2 ^ 32) (hh : height < 2 ^ 32)
    (hlen : pixels.length = width * height * 4)
    (hcb : ∀ b ∈ compress (rawScanlines width height pixels), b < 256)
    (hcl : (compress (rawScanlines width height pixels)).length < 2 ^ 32) :
    create_png compress width height pixels =
      pngSignature ++ chunkSpec ihdrType (be32 width ++ be32 height ++ [8, 6, 0, 0, 0])
        ++ chunkSpec idatType (compress (rawScanlines width height pixels))
        ++ chunkSpec iendType [] ∧
    (create_png compress width height pixels).take 8 = pngSignature ∧
    parseChunks 3 ((create_png compress width height pixels).drop 8) =
      some [(ihdrType, be32 width ++ be32 height ++ [8, 6, 0, 0, 0]),
        (idatType, compress (rawScanlines width height pixels)), (iendType, [])] := by
  have hsplit : create_png compress width height pixels
      = pngSignature ++ (chunk ihdrType (be32 width ++ be32 height ++ [8, 6, 0, 0, 0])
        ++ (chunk idatType (compress (rawScanlines width height pixels))
          ++ chunk iendType [])) := by
    simp [create_png, List.append_assoc]
  have hsiglen : pngSignature.length = 8 := rfl
  have hihdr_len : (be32 width ++ be32 height ++ [8, 6, 0, 0, 0]).length < 2 ^ 32 := by
    simp [be32]
  have hihdr_bytes : ∀ b ∈ ihdrType ++ (be32 width ++ be32 height ++ [8, 6, 0, 0, 0]),
      b < 256 := by
    intro b hb
    simp only [List.mem_append] at hb
    rcases hb with hb | (hb | hb) | hb
    · simp [ihdrType] at hb
      omega
    · exact be32_bytes_lt width b hb
    · exact be32_bytes_lt height b hb
    · simp at hb
      omega
  have hidat_bytes : ∀ b ∈ idatType ++ compress (rawScanlines width height pixels),
      b < 256 := by
    intro b hb
    simp only [List.mem_append] at hb
    rcases hb with hb | hb
    · simp [idatType] at hb
      omega
    · exact hcb b hb
  have hiend_bytes : ∀ b ∈ iendType ++ ([] : List Nat), b < 256 := by
    intro b hb
    simp [iendType] at hb
    omega
  refine ⟨by simp [create_png, chunk, chunkSpec, List.append_assoc], ?_, ?_⟩
  · rw [hsplit, ← hsiglen, List.take_left]
  · rw [hsplit, ← hsiglen, List.drop_left, hsiglen]
    rw [parseChunks_cons 2 ihdrType (be32 width ++ be32 height ++ [8, 6, 0, 0, 0]) _
      rfl hihdr_len hihdr_bytes]
    rw [parseChunks_cons 1 idatType (compress (rawScanlines width height pixels)) _
      rfl hcl hidat_bytes]
    rw [show chunk iendType [] = chunk iendType [] ++ [] from (List.append_nil _).symm]
    rw [parseChunks_cons 0 iendType [] [] rfl (by norm_num) hiend_bytes]
    rw [parseChunks_nil]
    rfl

/-- Witness for C1 on a 1-by-1 canvas with identity compression. -/
theorem c1_create_png_layout_witness :
    create_png id 1 1 [1, 2, 3, 4] =
      pngSignature ++ chunkSpec ihdrType (be32 1 ++ be32 1 ++ [8, 6, 0, 0, 0])
        ++ chunkSpec idatType (id (rawScanlines 1 1 [1, 2, 3, 4]))
        ++ chunkSpec iendType [] ∧
    (create_png id 1 1 [1, 2, 3, 4]).take 8 = pngSignature ∧
    parseChunks 3 ((create_png id 1 1 [1, 2, 3, 4]).drop 8) =
      some [(ihdrType, be32 1 ++ be32 1 ++ [8, 6, 0, 0, 0]),
        (idatType, id (rawScanlines 1 1 [1, 2, 3, 4])), (iendType, [])] :=
  c1_create_png_layout id 1 1 [1, 2, 3, 4] (by norm_num) (by norm_num) (by decide)
    (by decide) (by decide)

/-- Canvas width (dmg_background.py line 9). -/
def WIDTH : Nat := 660

/-- Canvas height (line 10). -/
def HEIGHT : Nat := 400

/-- Application icon x position shared with the packaging tool (line 13). -/
def APP_ICON_X : Nat := 160

/-- Applications-folder icon x position (line 14). -/
def APPS_ICON_X : Nat := 500

/-- Shared icon y position (line 15). -/
def ICON_Y : Nat := 190

/-- Four sequential byte writes of one RGBA pixel, as the gradient loop of
main performs them (lines 170-173). -/
def setPixelBytes (buf : List Nat) (idx r g b a : Nat) : List Nat :=
  (((buf.set idx r).set (idx + 1) g).set (idx + 2) b).set (idx + 3) a

/-- Red and green channel of the background gradient at row y (main,
lines 166-168): int(42 + t*6) with t = y/height, identical for both. -/
def gradRG (height y : Nat) : Nat := (pyInt (42 + (y : ℚ) / (height : ℚ) * 6)).toNat

/-- Blue channel of the background gradient at row y (main, line 169):
int(45 + t*6). -/
def gradB (height y : Nat) : Nat := (pyInt (45 + (y : ℚ) / (height : ℚ) * 6)).toNat

/-- One row of the gradient pass of main (lines 163-173). -/
def gradRow (width height y : Nat) (acc : List Nat) : List Nat :=
  (List.range width).foldl (fun acc2 x =>
    setPixelBytes acc2 ((y * width + x) * 4)
      (gradRG height y) (gradRG height y) (gradB height y) 255) acc

/-- Gradient pass of main (lines 162-173): writes every pixel row by row. -/
def paintGradient (width height : Nat) (buf : List Nat) : List Nat :=
  (List.range height).foldl (fun acc y => gradRow width height y acc) buf

theorem setPixelBytes_length (buf : List Nat) (idx r g b a : Nat) :
    (setPixelBytes buf idx r g b a).length = buf.length := by
  simp [setPixelBytes, List.length_set]

theorem gradRow_length (width height y : Nat) (acc : List Nat) :
    (gradRow width height y acc).length = acc.length := by
  refine foldl_preserve (fun buf => buf.length = acc.length) _ _ acc rfl ?_
  intro acc2 x hx h
  dsimp only at h ⊢
  rw [setPixelBytes_length]
  exact h

theorem gradRow_getD_frame (width height y : Nat) (acc : List Nat) (j : Nat)
    (hj : j < y * width * 4 ∨ y * width * 4 + width * 4 ≤ j) :
    (gradRow width height y acc).getD j 0 = acc.getD j 0 := by
  refine foldl_preserve (fun buf => buf.getD j 0 = acc.getD j 0) _ _ acc rfl ?_
  intro acc2 x hx h
  dsimp only at h ⊢
  have hxw : x < width := List.mem_range.1 hx
  rw [setPixelBytes, getD_set4_frame _ _ _ _ _ _ j (by omega)]
  exact h

theorem gradRow_getD (width height y : Nat) (acc : List Nat) (x c : Nat)
    (hx : x < width) (hc : c < 4) (hlen : y * width * 4 + width * 4 ≤ acc.length) :
    (gradRow width height y acc).getD ((y * width + x) * 4 + c) 0
      = [gradRG height y, gradRG height y, gradB height y, 255].getD c 0 := by
  rw [gradRow]
  have hr : List.range width
      = List.range (x + 1) ++ (List.range (width - x - 1)).map (fun i => (x + 1) + i) := by
    rw [← List.range_add]
    congr 1
    omega
  rw [hr, List.foldl_append, List.range_succ, List.foldl_append]
  set B1 := (List.range x).foldl (fun acc2 x2 =>
    setPixelBytes acc2 ((y * width + x2) * 4)
      (gradRG height y) (gradRG height y) (gradB height y) 255) acc with hB1
  have hB1len : B1.length = acc.length := by
    rw [hB1]
    refine foldl_preserve (fun buf => buf.length = acc.length) _ _ acc rfl ?_
    intro acc2 x2 hx2 h
    dsimp only at h ⊢
    rw [setPixelBytes_length]
    exact h
  have hmid : (List.foldl (fun acc2 x2 =>
      setPixelBytes acc2 ((y * width + x2) * 4)
        (gradRG height y) (gradRG height y) (gradB height y) 255) B1 [x])
      = setPixelBytes B1 ((y * width + x) * 4)
        (gradRG height y) (gradRG height y) (gradB height y) 255 := rfl
  rw [hmid]
  have hval : (setPixelBytes B1 ((y * width + x) * 4)
      (gradRG height y) (gradRG height y) (gradB height y) 255).getD
        ((y * width + x) * 4 + c) 0
      = [gradRG height y, gradRG height y, gradB height y, 255].getD c 0 := by
    have hb : (y * width + x) * 4 + 3 < B1.length := by omega
    have hc4 : c = 0 ∨ c = 1 ∨ c = 2 ∨ c = 3 := by omega
    rw [setPixelBytes]
    rcases hc4 with h | h | h | h <;> subst h
    · simpa using getD_set4_r B1 ((y * width + x) * 4) (gradRG height y) (gradRG height y)
        (gradB height y) 255 (by omega)
    · exact getD_set4_g B1 _ _ _ _ _ (by omega)
    · exact getD_set4_b B1 _ _ _ _ _ (by omega)
    · exact getD_set4_a B1 _ _ _ _ _ (by omega)
  refine foldl_preserve (fun buf : List Nat => buf.getD ((y * width + x) * 4 + c) 0
    = [gradRG height y, gradRG height y, gradB height y, 255].getD c 0) _ _ _ hval ?_
  intro acc2 x2 hx2 h
  dsimp only at h ⊢
  obtain ⟨i, _, hi⟩ := List.mem_map.1 hx2
  rw [setPixelBytes, getD_set4_frame _ _ _ _ _ _ _ (by omega)]
  exact h

theorem paintGradient_length (width height : Nat) (buf : List Nat) :
    (paintGradient width height buf).length = buf.length := by
  refine foldl_preserve (fun b => b.length = buf.length) _ _ buf rfl ?_
  intro acc y hy h
  dsimp only at h ⊢
  rw [gradRow_length]
  exact h

theorem row_bound (width height y : Nat) (hy : y < height) :
    y * width * 4 + width * 4 ≤ width * height * 4 := by
  have h1 : (y + 1) * width ≤ height * width := Nat.mul_le_mul_right width (by omega)
  rw [show (y + 1) * width = y * width + width from by ring] at h1
  rw [show width * height * 4 = height * width * 4 from by ring]
  omega

theorem paintGradient_getD (width height : Nat) (buf : List Nat) (x y c : Nat)
    (hx : x < width) (hy : y < height) (hc : c < 4)
    (hlen : buf.length = width * height * 4) :
    (paintGradient width height buf).getD ((y * width + x) * 4 + c) 0
      = [gradRG height y, gradRG height y, gradB height y, 255].getD c 0 := by
  rw [paintGradient]
  have hr : List.range height
      = List.range (y + 1) ++ (List.range (height - y - 1)).map (fun i => (y + 1) + i) := by
    rw [← List.range_add]
    congr 1
    omega
  rw [hr, List.foldl_append, List.range_succ, List.foldl_append]
  set B1 := (List.range y).foldl (fun acc y2 => gradRow width height y2 acc) buf with hB1
  have hB1len : B1.length = width * height * 4 := by
    rw [hB1]
    refine foldl_preserve (fun b => b.length = width * height * 4) _ _ buf hlen ?_
    intro acc y2 hy2 h
    dsimp only at h ⊢
    rw [gradRow_length]
    exact h
  have hmid : List.foldl (fun acc y2 => gradRow width height y2 acc) B1 [y]
      = gradRow width height y B1 := rfl
  rw [hmid]
  have hval : (gradRow width height y B1).getD ((y * width + x) * 4 + c) 0
      = [gradRG height y, gradRG height y, gradB height y, 255].getD c 0 :=
    gradRow_getD width height y B1 x c hx hc (by rw [hB1len]; exact row_bound width height y hy)
  refine foldl_preserve (fun b : List Nat => b.getD ((y * width + x) * 4 + c) 0
    = [gradRG height y, gradRG height y, gradB height y, 255].getD c 0) _ _ _ hval ?_
  intro acc y2 hy2 h
  dsimp only at h ⊢
  obtain ⟨i, _, hi⟩ := List.mem_map.1 hy2
  have hy2y : y * width + width ≤ y2 * width := by
    have h1 : (y + 1) * width ≤ y2 * width := Nat.mul_le_mul_right width (by omega)
    rw [show (y + 1) * width = y * width + width from by ring] at h1
    exact h1
  rw [gradRow_getD_frame width height y2 acc _ (by omega)]
  exact h

/-- Gradient-painted canvas of main before the arrow pass: the zeroed
660*400*4 buffer with the background gradient written over it
(main, lines 159-173). -/
def gradientCanvas : List Nat :=
  paintGradient WIDTH HEIGHT (List.replicate (WIDTH * HEIGHT * 4) 0)

theorem gradRG_at_0 : gradRG 400 0 = 42 := by
  rw [gradRG, pyInt_eq_floor (by norm_num)]
  norm_num
  rfl

theorem gradB_at_0 : gradB 400 0 = 45 := by
  rw [gradB, pyInt_eq_floor (by norm_num)]
  norm_num
  rfl

theorem gradRG_at_399 : gradRG 400 399 = 47 := by
  rw [gradRG, pyInt_eq_floor (by norm_num)]
  norm_num
  rfl

theorem gradB_at_399 : gradB 400 399 = 50 := by
  rw [gradB, pyInt_eq_floor (by norm_num)]
  norm_num
  rfl

/-- C6 as stated is false: after the gradient pass, the bottom-row pixel
(0, 399) has red channel 47, not the claimed 48, because t = y/height
never reaches 1 (int(42 + (399/400)*6) = int(47.985) = 47). -/
theorem c6_gradient_cex :
    gradientCanvas.getD ((399 * 660 + 0) * 4) 0 = 47 ∧ (47 : Nat) ≠ 48 := by
  have hgc : gradientCanvas = paintGradient 660 400 (List.replicate (660 * 400 * 4) 0) := rfl
  constructor
  · have h := paintGradient_getD 660 400 (List.replicate (660 * 400 * 4) 0) 0 399 0
      (by norm_num) (by norm_num) (by norm_num) (List.length_replicate _ _)
    rw [Nat.add_zero, List.getD_cons_zero] at h
    rw [hgc, h, gradRG_at_399]
  · omega

/-- C6 amended: each gradient row y has channels
(int(42 + (y/400)*6), int(42 + (y/400)*6), int(45 + (y/400)*6)) — the
truncated linear interpolation on t = y/height starting from (42,42,45) —
with alpha 255 everywhere; the top row is exactly (42,42,45) and the
bottom row (y = 399) is (47,47,50), approaching but never reaching the
nominal end color (48,48,51). -/
theorem c6_gradient_amended (x y : Nat) (hx : x < 660) (hy : y < 400) :
    (gradientCanvas.getD ((y * 660 + x) * 4) 0 = (pyInt (42 + (y : ℚ) / 400 * 6)).toNat ∧
     gradientCanvas.getD ((y * 660 + x) * 4 + 1) 0 = (pyInt (42 + (y : ℚ) / 400 * 6)).toNat ∧
     gradientCanvas.getD ((y * 660 + x) * 4 + 2) 0 = (pyInt (45 + (y : ℚ) / 400 * 6)).toNat ∧
     gradientCanvas.getD ((y * 660 + x) * 4 + 3) 0 = 255) ∧
    (y = 0 → gradientCanvas.getD ((y * 660 + x) * 4) 0 = 42 ∧
      gradientCanvas.getD ((y * 660 + x) * 4 + 2) 0 = 45) ∧
    (y = 399 → gradientCanvas.getD ((y * 660 + x) * 4) 0 = 47 ∧
      gradientCanvas.getD ((y * 660 + x) * 4 + 2) 0 = 50) := by
  have hgc : gradientCanvas = paintGradient 660 400 (List.replicate (660 * 400 * 4) 0) := rfl
  have h := fun (c : Nat) (hc : c < 4) =>
    paintGradient_getD 660 400 (List.replicate (660 * 400 * 4) 0) x y c hx hy hc
      (List.length_replicate _ _)
  have e0 : gradientCanvas.getD ((y * 660 + x) * 4) 0 = gradRG 400 y := by
    have h0 := h 0 (by norm_num)
    rw [Nat.add_zero, List.getD_cons_zero] at h0
    rw [hgc, h0]
  have e1 : gradientCanvas.getD ((y * 660 + x) * 4 + 1) 0 = gradRG 400 y := by
    have h1 := h 1 (by norm_num)
    rw [List.getD_cons_succ, List.getD_cons_zero] at h1
    rw [hgc, h1]
  have e2 : gradientCanvas.getD ((y * 660 + x) * 4 + 2) 0 = gradB 400 y := by
    have h2 := h 2 (by norm_num)
    rw [List.getD_cons_succ, List.getD_cons_succ, List.getD_cons_zero] at h2
    rw [hgc, h2]
  have e3 : gradientCanvas.getD ((y * 660 + x) * 4 + 3) 0 = 255 := by
    have h3 := h 3 (by norm_num)
    rw [List.getD_cons_succ, List.getD_cons_succ, List.getD_cons_succ,
      List.getD_cons_zero] at h3
    rw [hgc, h3]
  have hRG : gradRG 400 y = (pyInt (42 + (y : ℚ) / 400 * 6)).toNat := by norm_num [gradRG]
  have hB : gradB 400 y = (pyInt (45 + (y : ℚ) / 400 * 6)).toNat := by norm_num [gradB]
  refine ⟨⟨by rw [e0, hRG], by rw [e1, hRG], by rw [e2, hB], e3⟩, fun h0 => ?_, fun h399 => ?_⟩
  · subst h0
    exact ⟨by rw [e0, gradRG_at_0], by rw [e2, gradB_at_0]⟩
  · subst h399
    exact ⟨by rw [e0, gradRG_at_399], by rw [e2, gradB_at_399]⟩

/-- Witness for the amended C6 at the top-left and bottom-left pixels. -/
theorem c6_gradient_amended_witness :
    gradientCanvas.getD ((0 * 660 + 0) * 4) 0 = 42 ∧
    gradientCanvas.getD ((399 * 660 + 0) * 4 + 2) 0 = 50 ∧
    gradientCanvas.getD ((399 * 660 + 0) * 4 + 3) 0 = 255 := by
  have h0 := c6_gradient_amended 0 0 (by norm_num) (by norm_num)
  have h399 := c6_gradient_amended 0 399 (by norm_num) (by norm_num)
  exact ⟨(h0.2.1 rfl).1, (h399.2.2 rfl).2, h399.1.2.2.2⟩

/-- Python's range(lo, hi+1) over integers as a list. -/
def intRange (lo hi : Int) : List Int :=
  (List.range (hi + 1 - lo).toNat).map (fun (i : Nat) => lo + (i : Int))

theorem mem_intRange {lo hi x : Int} (h : x ∈ intRange lo hi) : lo ≤ x ∧ x ≤ hi := by
  rw [intRange] at h
  obtain ⟨i, hi1, hi2⟩ := List.mem_map.1 h
  have hir := List.mem_range.1 hi1
  omega

/-- Distance from pixel (px, py) to the segment (x1,y1)-(x2,y2) as
draw_thick_line computes it (lines 82-86): projection parameter clamped to
[0,1], closest point, Euclidean distance. -/
noncomputable def segDist (x1 y1 x2 y2 : ℝ) (px py : Int) : ℝ :=
  let dx := x2 - x1
  let dy := y2 - y1
  let length := Real.sqrt (dx * dx + dy * dy)
  let t := max 0 (min 1 ((((px : ℝ) - x1) * dx + ((py : ℝ) - y1) * dy) / (length * length)))
  let closest_x := x1 + t * dx
  let closest_y := y1 + t * dy
  Real.sqrt (((px : ℝ) - closest_x) ^ 2 + ((py : ℝ) - closest_y) ^ 2)

/-- Per-pixel paint alpha of draw_thick_line (lines 88-94): none when the
pixel is skipped, some edge alpha when set_pixel is called. -/
noncomputable def lineEdgeAlpha (thickness : ℝ) (a : Nat) (dist : ℝ) : Option ℤ :=
  if dist < thickness / 2 then
    let edge_a := if dist > thickness / 2 - 1 then pyIntR ((a : ℝ) * (thickness / 2 - dist))
      else (a : ℤ)
    if edge_a > 0 then some edge_a else none
  else none

/-- Rasterizer draw_thick_line (dmg_background.py lines 60-95): zero-length
segments draw nothing; otherwise every pixel of the clamped padded
bounding box is painted through set_pixel with its edge alpha. -/
noncomputable def draw_thick_line (pixels : List Nat) (width height : Nat)
    (x1 y1 x2 y2 thickness : ℝ) (r g b a : Nat) : List Nat :=
  let dx := x2 - x1
  let dy := y2 - y1
  let length := Real.sqrt (dx * dx + dy * dy)
  if length = 0 then pixels
  else
    let half_t := thickness / 2 + 1
    let min_x := max 0 (pyIntR (min x1 x2 - half_t))
    let max_x := min ((width : Int) - 1) (pyIntR (max x1 x2 + half_t))
    let min_y := max 0 (pyIntR (min y1 y2 - half_t))
    let max_y := min ((height : Int) - 1) (pyIntR (max y1 y2 + half_t))
    (intRange min_y max_y).foldl (fun buf py =>
      (intRange min_x max_x).foldl (fun buf2 px =>
        match lineEdgeAlpha thickness a (segDist x1 y1 x2 y2 px py) with
        | some edge_a => set_pixel buf2 width height px py r g b edge_a.toNat
        | none => buf2) buf) pixels

/-- Per-pixel paint alpha of draw_filled_circle (lines 103-109). -/
noncomputable def circleEdgeAlpha (radius : ℝ) (a : Nat) (dist : ℝ) : Option ℤ :=
  if dist < radius then
    let edge_a := if dist > radius - 1 then pyIntR ((a : ℝ) * (radius - dist)) else (a : ℤ)
    if edge_a > 0 then some edge_a else none
  else none

/-- Rasterizer draw_filled_circle (dmg_background.py lines 98-109);
Python's range(lo, hi) is intRange lo (hi - 1). -/
noncomputable def draw_filled_circle (pixels : List Nat) (width height : Nat)
    (cx cy radius : ℝ) (r g b a : Nat) : List Nat :=
  (intRange (max 0 (pyIntR (cy - radius - 1)))
      (min (height : Int) (pyIntR (cy + radius + 2)) - 1)).foldl (fun buf (py : Int) =>
    (intRange (max 0 (pyIntR (cx - radius - 1)))
        (min (width : Int) (pyIntR (cx + radius + 2)) - 1)).foldl (fun buf2 (px : Int) =>
      match circleEdgeAlpha radius a
          (Real.sqrt (((px : ℝ) - cx) ^ 2 + ((py : ℝ) - cy) ^ 2)) with
      | some edge_a => set_pixel buf2 width height px py r g b edge_a.toNat
      | none => buf2) buf) pixels

/-- Rasterizer draw_chevron (lines 112-129): two thick lines sharing the
rightmost point, with indent 0.6 times the half height. -/
noncomputable def draw_chevron (pixels : List Nat) (width height : Nat)
    (cx cy half_h thickness : ℝ) (r g b a : Nat) : List Nat :=
  let indent := half_h * 0.6
  draw_thick_line
    (draw_thick_line pixels width height (cx - indent) (cy - half_h) (cx + indent) cy
      thickness r g b a)
    width height (cx + indent) cy (cx - indent) (cy + half_h) thickness r g b a

/-- Scene builder draw_arrow (lines 132-152): two chevrons of half height
28 and thickness 8, color (200,210,230) with alpha 200, centered around
the midpoint of the two icon positions, offset by half the 22px spacing. -/
noncomputable def draw_arrow (pixels : List Nat) (width height : Nat) : List Nat :=
  let cx : Nat := (APP_ICON_X + APPS_ICON_X) / 2
  let cy : Nat := ICON_Y
  let spacing : Nat := 22
  draw_chevron
    (draw_chevron pixels width height ((cx - spacing / 2 : Nat) : ℝ) (cy : ℝ) 28 8
      200 210 230 200)
    width height ((cx + spacing / 2 : Nat) : ℝ) (cy : ℝ) 28 8 200 210 230 200

/-- Final pixel buffer of main just before PNG encoding: the gradient pass
followed by the arrow pass (lines 159-176). -/
noncomputable def mainPixels : List Nat := draw_arrow gradientCanvas WIDTH HEIGHT

/-- C8: a zero-length line (coincident endpoints) paints nothing and
leaves every byte of the buffer unchanged. -/
theorem c8_degenerate_line (pixels : List Nat) (width height : Nat) (x y thickness : ℝ)
    (r g b a : Nat) :
    draw_thick_line pixels width height x y x y thickness r g b a = pixels := by
  have h0 : Real.sqrt ((x - x) * (x - x) + (y - y) * (y - y)) = 0 := by
    simp
  rw [draw_thick_line]
  dsimp only
  rw [if_pos h0]

/-- C5: an out-of-canvas set_pixel call changes nothing, and a thick line
or filled circle whose painted region misses every canvas pixel center
(distance at least thickness/2 from the segment, or at least radius from
the center, at every in-canvas pixel) mutates no byte of the buffer. -/
theorem c5_silent_clipping (width height : Nat) :
    (∀ (pixels : List Nat) (x y : Int) (r g b a : Nat),
      x < 0 ∨ (width : Int) ≤ x ∨ y < 0 ∨ (height : Int) ≤ y →
      set_pixel pixels width height x y r g b a = pixels) ∧
    (∀ (pixels : List Nat) (x1 y1 x2 y2 thickness : ℝ) (r g b a : Nat),
      (∀ px py : Int, 0 ≤ px → px < (width : Int) → 0 ≤ py → py < (height : Int) →
        thickness / 2 ≤ segDist x1 y1 x2 y2 px py) →
      draw_thick_line pixels width height x1 y1 x2 y2 thickness r g b a = pixels) ∧
    (∀ (pixels : List Nat) (cx cy radius : ℝ) (r g b a : Nat),
      (∀ px py : Int, 0 ≤ px → px < (width : Int) → 0 ≤ py → py < (height : Int) →
        radius ≤ Real.sqrt (((px : ℝ) - cx) ^ 2 + ((py : ℝ) - cy) ^ 2)) →
      draw_filled_circle pixels width height cx cy radius r g b a = pixels) := by
  refine ⟨fun pixels x y r g b a h => set_pixel_of_oob pixels width height x y r g b a h,
    fun pixels x1 y1 x2 y2 thickness r g b a h => ?_,
    fun pixels cx cy radius r g b a h => ?_⟩
  · rw [draw_thick_line]
    dsimp only
    split
    · rfl
    · refine foldl_fixed _ _ _ ?_
      intro acc py hpy
      refine foldl_fixed _ _ _ ?_
      intro acc2 px hpx
      have hpxb := mem_intRange hpx
      have hpyb := mem_intRange hpy
      have hpx0 : 0 ≤ px := le_trans (le_max_left 0 _) hpxb.1
      have hpxw : px < (width : Int) := by
        have := hpxb.2
        have h2 : px ≤ (width : Int) - 1 := le_trans this (min_le_left _ _)
        omega
      have hpy0 : 0 ≤ py := le_trans (le_max_left 0 _) hpyb.1
      have hpyh : py < (height : Int) := by
        have := hpyb.2
        have h2 : py ≤ (height : Int) - 1 := le_trans this (min_le_left _ _)
        omega
      have hdist := h px py hpx0 hpxw hpy0 hpyh
      rw [lineEdgeAlpha, if_neg (not_lt.2 hdist)]
  · rw [draw_filled_circle]
    refine foldl_fixed _ _ _ ?_
    intro acc py hpy
    refine foldl_fixed _ _ _ ?_
    intro acc2 px hpx
    have hpxb := mem_intRange hpx
    have hpyb := mem_intRange hpy
    have hpx0 : 0 ≤ px := le_trans (le_max_left 0 _) hpxb.1
    have hpxw : px < (width : Int) :=
      lt_of_le_of_lt (le_trans hpxb.2 (by omega : min (width : Int)
        (pyIntR (cx + radius + 2)) - 1 ≤ min (width : Int) (pyIntR (cx + radius + 2)) - 1))
        (by
          have := min_le_left (width : Int) (pyIntR (cx + radius + 2))
          omega)
    have hpy0 : 0 ≤ py := le_trans (le_max_left 0 _) hpyb.1
    have hpyh : py < (height : Int) := by
      have h1 := hpyb.2
      have h2 := min_le_left (height : Int) (pyIntR (cy + radius + 2))
      omega
    have hdist := h px py hpx0 hpxw hpy0 hpyh
    rw [circleEdgeAlpha, if_neg (not_lt.2 hdist)]

/-- Witness for C5 on a 1-by-1 canvas: an out-of-bounds pixel write, a
thick line left of the canvas, and a circle left of the canvas. -/
theorem c5_silent_clipping_witness :
    set_pixel [1, 2, 3, 4] 1 1 (-1) 0 9 9 9 9 = [1, 2, 3, 4] ∧
    draw_thick_line [1, 2, 3, 4] 1 1 (-10) 0 (-10) 1 2 9 9 9 9 = [1, 2, 3, 4] ∧
    draw_filled_circle [1, 2, 3, 4] 1 1 (-10) 0 2 9 9 9 9 = [1, 2, 3, 4] := by
  have h := c5_silent_clipping 1 1
  refine ⟨h.1 [1, 2, 3, 4] (-1) 0 9 9 9 9 (by omega), ?_, ?_⟩
  · refine h.2.1 [1, 2, 3, 4] (-10) 0 (-10) 1 2 9 9 9 9 ?_
    intro px py h0x hx1 h0y hy1
    have hpx : px = 0 := by omega
    have hpy : py = 0 := by omega
    subst hpx
    subst hpy
    rw [segDist]
    norm_num
  · refine h.2.2 [1, 2, 3, 4] (-10) 0 2 9 9 9 9 ?_
    intro px py h0x hx1 h0y hy1
    have hpx : px = 0 := by omega
    have hpy : py = 0 := by omega
    subst hpx
    subst hpy
    norm_num
    rw [show (100 : ℝ) = 10 ^ 2 from by norm_num, Real.sqrt_sq (by norm_num)]
    norm_num

theorem floor_half_nat (a : Nat) : ⌊(a : ℝ) * (1 / 2)⌋ = ((a / 2 : Nat) : ℤ) := by
  rw [Int.floor_eq_iff]
  constructor
  · rw [mul_one_div, le_div_iff₀ (by norm_num : (0 : ℝ) < 2)]
    have h2 : (a / 2) * 2 ≤ a := Nat.div_mul_le_self a 2
    exact_mod_cast h2
  · rw [mul_one_div, div_lt_iff₀ (by norm_num : (0 : ℝ) < 2)]
    have h2 : a < (a / 2 + 1) * 2 := by omega
    push_cast
    exact_mod_cast h2

/-- C7 as stated is false at nominal alpha 1: the pixel (0,0) at distance
exactly R - 0.5 = 4.5 from the circle center (4.5, 0) of radius 5 gets
edge alpha int(1 * 0.5) = 0 and is skipped entirely, so it is not painted
with an alpha strictly between 0 and 1. -/
theorem c7_antialias_cex :
    circleEdgeAlpha 5 1
      (Real.sqrt ((((0 : Int) : ℝ) - 4.5) ^ 2 + (((0 : Int) : ℝ) - 0) ^ 2)) = none := by
  have hd : Real.sqrt ((((0 : Int) : ℝ) - 4.5) ^ 2 + (((0 : Int) : ℝ) - 0) ^ 2) = 4.5 := by
    rw [show (((0 : Int) : ℝ) - 4.5) ^ 2 + (((0 : Int) : ℝ) - 0) ^ 2 = 4.5 ^ 2 from by
      norm_num]
    exact Real.sqrt_sq (by norm_num)
  rw [hd, circleEdgeAlpha, if_pos (by norm_num : (4.5 : ℝ) < 5)]
  dsimp only
  rw [if_pos (by norm_num : (4.5 : ℝ) > 5 - 1)]
  rw [show ((1 : Nat) : ℝ) * (5 - 4.5) = 1 / 2 from by norm_num,
    pyIntR_eq_floor (by norm_num)]
  rw [show ⌊(1 / 2 : ℝ)⌋ = 0 from by norm_num]
  norm_num

/-- C7 amended: for a circle of radius R drawn with nominal alpha a, a
pixel at distance exactly R - 1.5 is painted with full alpha a (for
a > 0), a pixel at distance R + 0.5 is not painted at all, and a pixel at
distance R - 0.5 is painted with int(a * 0.5) = a/2, which lies strictly
between 0 and a provided a is at least 2; at a = 1 the truncation reaches
0 and the pixel is skipped. -/
theorem c7_antialias_boundary (radius : ℝ) (a : Nat) :
    (0 < a → circleEdgeAlpha radius a (radius - 1.5) = some (a : ℤ)) ∧
    circleEdgeAlpha radius a (radius + 0.5) = none ∧
    (2 ≤ a → circleEdgeAlpha radius a (radius - 0.5) = some ((a / 2 : Nat) : ℤ) ∧
      0 < a / 2 ∧ a / 2 < a) := by
  refine ⟨fun ha => ?_, ?_, fun ha => ⟨?_, by omega, by omega⟩⟩
  · rw [circleEdgeAlpha, if_pos (by linarith : radius - 1.5 < radius)]
    dsimp only
    rw [if_neg (by simp; linarith : ¬(radius - 1.5 > radius - 1))]
    rw [if_pos (by exact_mod_cast ha : (a : ℤ) > 0)]
  · rw [circleEdgeAlpha, if_neg (by linarith : ¬(radius + 0.5 < radius))]
  · rw [circleEdgeAlpha, if_pos (by linarith : radius - 0.5 < radius)]
    dsimp only
    rw [if_pos (by linarith : radius - 0.5 > radius - 1)]
    rw [show (a : ℝ) * (radius - (radius - 0.5)) = (a : ℝ) * (1 / 2) from by ring_nf]
    rw [pyIntR_eq_floor (by positivity), floor_half_nat]
    rw [if_pos (by exact_mod_cast (by omega : 0 < a / 2) : ((a / 2 : Nat) : ℤ) > 0)]

/-- Witness for the amended C7 at radius 5 and alpha 200. -/
theorem c7_antialias_boundary_witness :
    circleEdgeAlpha 5 200 (5 - 1.5) = some ((200 : Nat) : ℤ) ∧
    circleEdgeAlpha 5 200 (5 + 0.5) = none ∧
    circleEdgeAlpha 5 200 (5 - 0.5) = some ((200 / 2 : Nat) : ℤ) := by
  have h := c7_antialias_boundary 5 200
  exact ⟨h.1 (by norm_num), h.2.1, (h.2.2 (by norm_num)).1⟩

/-- Invariant: the buffer has its nominal length and every alpha byte
(index 3 mod 4) is 255. -/
def alphaAll255 (n : Nat) (buf : List Nat) : Prop :=
  buf.length = n ∧ ∀ j : Nat, j < n → j % 4 = 3 → buf.getD j 0 = 255

theorem set_pixel_alpha255 (pixels : List Nat) (width height : Nat) (x y : Int)
    (r g b a : Nat) (h : alphaAll255 (width * height * 4) pixels) :
    alphaAll255 (width * height * 4) (set_pixel pixels width height x y r g b a) := by
  obtain ⟨hlen, hinv⟩ := h
  refine ⟨by rw [set_pixel_length]; exact hlen, ?_⟩
  intro j hj hj4
  by_cases hin : 0 ≤ x ∧ x < (width : Int) ∧ 0 ≤ y ∧ y < (height : Int)
  · obtain ⟨hx, hxw, hy, hyh⟩ := hin
    have hmod := pixIdx_mod_four width x y
    have hi3 : pixIdx width x y + 3 < width * height * 4 :=
      pixIdx_add_lt width height x y 3 hx hxw hy hyh (by omega)
    have hold : pixels.getD (pixIdx width x y + 3) 0 = 255 := hinv _ hi3 (by omega)
    have hne : pixels.getD (pixIdx width x y + 3) 0 ≠ 0 := by rw [hold]; omega
    rw [set_pixel_of_blend pixels width height x y r g b a ⟨hx, hxw, hy, hyh⟩ hne]
    by_cases hjin : pixIdx width x y ≤ j ∧ j < pixIdx width x y + 4
    · have hj3 : j = pixIdx width x y + 3 := by omega
      subst hj3
      rw [getD_set4_a _ _ _ _ _ _ (by rw [hlen]; exact hi3), hold]
      omega
    · rw [getD_set4_frame _ _ _ _ _ _ j (by omega)]
      exact hinv j hj hj4
  · rw [set_pixel_of_not_in pixels width height x y r g b a hin]
    exact hinv j hj hj4

theorem draw_thick_line_alpha255 (pixels : List Nat) (width height : Nat)
    (x1 y1 x2 y2 thickness : ℝ) (r g b a : Nat)
    (h : alphaAll255 (width * height * 4) pixels) :
    alphaAll255 (width * height * 4)
      (draw_thick_line pixels width height x1 y1 x2 y2 thickness r g b a) := by
  rw [draw_thick_line]
  dsimp only
  split
  · exact h
  · refine foldl_preserve (alphaAll255 (width * height * 4)) _ _ _ h ?_
    intro acc py hpy hacc
    dsimp only at hacc ⊢
    refine foldl_preserve (alphaAll255 (width * height * 4)) _ _ _ hacc ?_
    intro acc2 px hpx hacc2
    dsimp only at hacc2 ⊢
    split
    · exact set_pixel_alpha255 _ width height _ _ _ _ _ _ hacc2
    · exact hacc2

theorem draw_chevron_alpha255 (pixels : List Nat) (width height : Nat)
    (cx cy half_h thickness : ℝ) (r g b a : Nat)
    (h : alphaAll255 (width * height * 4) pixels) :
    alphaAll255 (width * height * 4)
      (draw_chevron pixels width height cx cy half_h thickness r g b a) :=
  draw_thick_line_alpha255 _ width height _ _ _ _ _ _ _ _ _
    (draw_thick_line_alpha255 _ width height _ _ _ _ _ _ _ _ _ h)

theorem draw_arrow_alpha255 (pixels : List Nat) (width height : Nat)
    (h : alphaAll255 (width * height * 4) pixels) :
    alphaAll255 (width * height * 4) (draw_arrow pixels width height) :=
  draw_chevron_alpha255 _ width height _ _ _ _ _ _ _ _
    (draw_chevron_alpha255 _ width height _ _ _ _ _ _ _ _ h)

theorem gradientCanvas_alpha255 : alphaAll255 (660 * 400 * 4) gradientCanvas := by
  have hgc : gradientCanvas = paintGradient 660 400 (List.replicate (660 * 400 * 4) 0) := rfl
  constructor
  · rw [hgc, paintGradient_length]
    exact List.length_replicate _ _
  · intro j hj hj4
    have hx : j / 4 % 660 < 660 := Nat.mod_lt _ (by norm_num)
    have hy : j / 4 / 660 < 400 := by omega
    have hj' : j = ((j / 4 / 660) * 660 + j / 4 % 660) * 4 + 3 := by omega
    have h := paintGradient_getD 660 400 (List.replicate (660 * 400 * 4) 0)
      (j / 4 % 660) (j / 4 / 660) 3 hx hy (by omega) (List.length_replicate _ _)
    rw [List.getD_cons_succ, List.getD_cons_succ, List.getD_cons_succ,
      List.getD_cons_zero] at h
    rw [hgc, hj']
    exact h

/-- C10: every alpha byte of the final image buffer is exactly 255: the
gradient pass writes alpha 255 everywhere, and every subsequent arrow
set_pixel call finds a nonzero destination alpha, takes the blend branch,
and stores min(255, 255 + a) = 255. -/
theorem c10_alpha_always_255 (j : Nat) (hj : j < 660 * 400 * 4) (hj4 : j % 4 = 3) :
    mainPixels.getD j 0 = 255 := by
  have h : alphaAll255 (660 * 400 * 4) (draw_arrow gradientCanvas 660 400) :=
    draw_arrow_alpha255 gradientCanvas 660 400 gradientCanvas_alpha255
  have hmp : mainPixels = draw_arrow gradientCanvas 660 400 := rfl
  rw [hmp]
  exact h.2 j hj hj4

/-- Witness for C10 at the first alpha byte. -/
theorem c10_alpha_always_255_witness : mainPixels.getD 3 0 = 255 :=
  c10_alpha_always_255 3 (by norm_num) (by norm_num)

end DmgBackground
